import Mathlib

/-!
Verification of the coach-matcher scoring engine (src/coach_matcher.py).

The pipeline `compute_scores` is embedded shallowly over exact rationals:
every float of the source is modelled as a `Rat`.  The only irrational
ingredient, the per-record exponential recency weight
`0.5 ** (days_ago / max(half_life_days, 0.0001))`, is modelled twice:

* `exponential_recency_weight` over `ℝ` (real powers), faithful to the
  source function of the same name, with its analytic properties proven
  directly; and
* inside the pipeline, as an abstract parameter `recencyW : Nat → Rat`
  mapping a record's clipped integer age in days to its weight — the
  source assigns `d["recency_w"]` by applying the weight function to the
  `days_ago` column; abstracting that single column keeps the rest of the
  pipeline exactly computable.  Theorems that need facts about the weight
  column (nonnegativity, upper bound 1) take them as hypotheses, which the
  real-valued weight function is proven to satisfy.

Table modelling conventions, each faithful to the pandas source:
* a DataFrame is a list of rows (a `structure`) plus, for the final result,
  the list of column labels, so that the shape of the empty short-circuit
  result (lines 85-89) is captured;
* `pd.to_datetime(..., errors="coerce")` and `pd.to_numeric(...).fillna(0)`
  (`coerce_types`, lines 70-74) are modelled with `Option` fields: a `none`
  date is a `NaT`, a `none` raw minutes value is a parse failure coerced
  to 0;
* `groupby("coach")` sorts its group keys ascending (pandas default
  `sort=True`), modelled as `insertionSort` of the deduplicated keys;
* pandas `sum` skips NaN, so the recency sum is the sum of the weights of
  the validly dated records (`List.filterMap`);
* `merge(..., on="coach", how="left")` keeps the left row order, fans out
  over all matching right rows in right order, and emits one all-NaN match
  for a left row without a partner (`mergeProfiles`);
* `sort_values("combined_score", ascending=False)` computes a stable
  ascending argsort of the key column and reverses the resulting indexer
  (pandas `nargsort`; numpy's quicksort is insertion sort, hence stable, on
  the small partitions relevant here), modelled as stable `insertionSort`
  by ascending combined score followed by `List.reverse`;
* `np.round` rounds half to even (`roundHalfEven`).
-/

namespace CoachMatcher

/-!
The pandas string accessors `.str.lower()`, `.str.strip()` and Python's
`str.split(",")` are modelled character-wise over `String.data` (the
underlying character list), by structural recursion, so that the kernel
can evaluate them on concrete inputs.  `Char.toLower` matches Python
`str.lower` on the ASCII identifiers and tags the tables hold, and
`Char.isWhitespace` matches the whitespace Python `str.strip` removes.
-/

/-- `.str.lower()`. -/
def toLowerStr (s : String) : String := ⟨s.data.map Char.toLower⟩

/-- `.str.strip()`: drop leading and trailing whitespace. -/
def stripStr (s : String) : String :=
  ⟨((s.data.dropWhile Char.isWhitespace).reverse.dropWhile
      Char.isWhitespace).reverse⟩

/-- Python `str.split(sep)` over a character list: every occurrence of the
separator ends a piece, and empty pieces are kept. -/
def splitChar (sep : Char) : List Char → List (List Char)
  | [] => [[]]
  | c :: cs =>
    match splitChar sep cs with
    | [] => if c = sep then [[], []] else [[c]]
    | h :: t => if c = sep then [] :: h :: t else (c :: h) :: t

/-- Python `s.split(",")`. -/
def splitOnCommaStr (s : String) : List String :=
  (splitChar ',' s.data).map (fun l => ⟨l⟩)

/-- A drills row before `coerce_types`: `minutes` is the result of
`pd.to_numeric(..., errors="coerce")` seen as `Option` (`none` = NaN from a
malformed value), `date` is the already-parsed calendar date as a day
number (`none` = NaT; date-string parsing is an external adapter). -/
structure RawDrill where
  student : String
  coach : String
  date : Option Int
  minutes : Option Rat
  drill_type : String
deriving DecidableEq, Repr

/-- A drills row after `coerce_types`: minutes coerced, `fillna(0)`. -/
structure Drill where
  student : String
  coach : String
  date : Option Int
  minutes : Rat
  drill_type : String
deriving DecidableEq, Repr

/-- One application of lines 70-74 to a single row: `fillna(0)` on minutes. -/
def coerceDrill (r : RawDrill) : Drill :=
  { student := r.student, coach := r.coach, date := r.date,
    minutes := r.minutes.getD 0, drill_type := r.drill_type }

/-- `coerce_types` (lines 70-74), applied rowwise. -/
def coerce_types (l : List RawDrill) : List Drill := l.map coerceDrill

/-- A row of the coaches table: `specialties` and `rating` may be NaN. -/
structure CoachProfile where
  coach : String
  specialties : Option String
  rating : Option Rat
deriving DecidableEq, Repr

/-- The five component weights after merging onto the defaults. -/
structure Weights where
  recency : Rat
  volume : Rat
  coverage : Rat
  minutes : Rat
  specialty : Rat
deriving DecidableEq, Repr

/-- A caller-supplied partial weight mapping: `none` means the key is
absent and the default applies (lines 80-81 and 133). -/
structure WeightOverrides where
  recency : Option Rat
  volume : Option Rat
  coverage : Option Rat
  minutes : Option Rat
  specialty : Option Rat
deriving DecidableEq, Repr

/-- The all-absent override mapping (caller passed `weights=None`). -/
def noOverrides : WeightOverrides := ⟨none, none, none, none, none⟩

/-- `w = {**defaults, **weights}` (line 133, also lines 80-81). -/
def mergeWeights (o : WeightOverrides) : Weights :=
  { recency := o.recency.getD 0.4, volume := o.volume.getD 0.3,
    coverage := o.coverage.getD 0.15, minutes := o.minutes.getD 0.1,
    specialty := o.specialty.getD 0.05 }

/-- `set(roster["student"].str.strip().str.lower().unique())` (line 83),
as a duplicate-free list. -/
def roster_students (roster : List String) : List String :=
  (roster.map (fun s => toLowerStr (stripStr s))).dedup

/-- The roster filter of line 84. -/
def filterToRoster (drills : List Drill) (roster : List String) : List Drill :=
  drills.filter (fun r => toLowerStr (stripStr r.student) ∈ roster_students roster)

/-- `(as_of_date - d["date"]).dt.days.clip(lower=0)` for one valid date
(line 91): `Int.toNat` clips negatives to 0. -/
def days_ago (asOf : Int) (t : Int) : Nat := (asOf - t).toNat

/-- The `recency_w` column entry of a record (lines 91-92): `none` when the
date is NaT (NaN propagates through the subtraction and the power). -/
def recency_w (recencyW : Nat → Rat) (asOf : Int) (r : Drill) : Option Rat :=
  r.date.map (fun t => recencyW (days_ago asOf t))

/-- One row of `grp` after the aggregation of lines 94-99. -/
structure Agg where
  coach : String
  sessions : Nat
  students_covered : Nat
  total_minutes : Rat
  recency_sum : Rat
deriving DecidableEq, Repr

/-- Code-point comparison of strings, the order pandas sorts group keys
by. -/
def strLe (a b : String) : Bool :=
  charsLe a.data b.data
where
  charsLe : List Char → List Char → Bool
    | [], _ => true
    | _ :: _, [] => false
    | c :: cs, e :: es => if c < e then true else if e < c then false else charsLe cs es

/-- Ascending insertion of a string into a sorted list of strings. -/
def insertStr (a : String) : List String → List String
  | [] => [a]
  | b :: l => if strLe a b then a :: b :: l else b :: insertStr a l

/-- Ascending insertion sort of strings. -/
def sortStrings : List String → List String
  | [] => []
  | a :: l => insertStr a (sortStrings l)

/-- The group keys of `d.groupby("coach")`: distinct coach identifiers,
sorted ascending (pandas groups with `sort=True`). -/
def coachKeys (d : List Drill) : List String :=
  sortStrings ((d.map (fun r => r.coach)).dedup)

/-- The aggregation of lines 94-99 for one group key: `sessions` counts all
rows of the group, `students_covered` counts distinct lowercased (not
stripped!) student identifiers, `total_minutes` sums minutes, and
`recency_sum` sums the weights of the validly dated rows (pandas `sum`
skips NaN). -/
def aggregateFor (recencyW : Nat → Rat) (asOf : Int) (d : List Drill)
    (c : String) : Agg :=
  let rows := d.filter (fun r => r.coach = c)
  { coach := c,
    sessions := rows.length,
    students_covered := ((rows.map (fun r => toLowerStr r.student)).dedup).length,
    total_minutes := (rows.map (fun r => r.minutes)).sum,
    recency_sum := (rows.filterMap (recency_w recencyW asOf)).sum }

/-- The `grp` table produced by lines 94-99. -/
def aggRows (recencyW : Nat → Rat) (asOf : Int) (d : List Drill) : List Agg :=
  (coachKeys d).map (aggregateFor recencyW asOf d)

/-- pandas `Series.max` of a column, defined on the nonempty tables the
pipeline feeds it. -/
def listMax : List Rat → Rat
  | [] => 0
  | x :: xs => xs.foldl max x

/-- pandas `Series.min` of a column. -/
def listMin : List Rat → Rat
  | [] => 0
  | x :: xs => xs.foldl min x

/-- `norm` (lines 101-105): zero when the column maximum is ≤ 0, otherwise
the value divided by the column maximum. -/
def norm (vals : List Rat) (v : Rat) : Rat :=
  if listMax vals ≤ 0 then 0 else v / listMax vals

/-- The trimmed, nonempty, comma-separated tags of a specialties string
(inner comprehension of line 116). -/
def specialtyTags (s : String) : List String :=
  ((splitOnCommaStr s).map stripStr).filter (fun t => t ≠ "")

/-- The `specialty_match` column of `coaches_local` (lines 114-119):
1 exactly when the lowercased requested event is one of the coach's
lowercased trimmed tags, 0 otherwise; 0 for everyone when no event was
requested. -/
def specialty_match (event : Option String) (p : CoachProfile) : Rat :=
  match event with
  | some e =>
      if toLowerStr e ∈ specialtyTags (toLowerStr (p.specialties.getD "")) then 1
      else 0
  | none => 0

/-- A row of `grp` after the left merge of line 121: the aggregate plus the
`specialty_match` and `rating` columns, each `none` (NaN) when the left row
found no partner in the coaches table. -/
structure Merged where
  agg : Agg
  specialty_match : Option Rat
  rating : Option Rat
deriving DecidableEq, Repr

/-- The merge partners of one left row `g` under
`merge(..., on="coach", how="left")`: all matching right rows in right
order, or one all-NaN row when there is no match. -/
def mergeBlock (event : Option String) (coaches : List CoachProfile)
    (g : Agg) : List Merged :=
  match coaches.filter (fun p => p.coach = g.coach) with
  | [] => [{ agg := g, specialty_match := none, rating := none }]
  | ms => ms.map (fun p =>
      { agg := g, specialty_match := some (specialty_match event p),
        rating := p.rating })

/-- `grp.merge(coaches_local[["coach","specialty_match","rating"]],
on="coach", how="left")` (line 121): left rows in order, each fanned out
over its block of matches. -/
def mergeProfiles (event : Option String) (grp : List Agg)
    (coaches : List CoachProfile) : List Merged :=
  grp.flatMap (mergeBlock event coaches)

/-- The rating column after `fillna(0)` (line 124). -/
def ratingVals (merged : List Merged) : List Rat :=
  merged.map (fun x => x.rating.getD 0)

/-- `r_norm` (line 125): min-max normalization of the filled ratings, zero
for everyone when the column maximum does not exceed the minimum. -/
def r_norm (merged : List Merged) (x : Merged) : Rat :=
  if listMin (ratingVals merged) < listMax (ratingVals merged) then
    (x.rating.getD 0 - listMin (ratingVals merged)) /
      (listMax (ratingVals merged) - listMin (ratingVals merged))
  else 0

/-- `spec_raw` (line 126): `specialty_match.fillna(0)*0.7 + r_norm*0.3`.
(The `else` branch of lines 127-128 is dead: `ensure_columns` requires the
coaches table to carry a `rating` column, so the merged frame always has
one.) -/
def spec_raw (merged : List Merged) (x : Merged) : Rat :=
  x.specialty_match.getD 0 * 0.7 + r_norm merged x * 0.3

/-- The `specialty_score` column (line 130): `spec_raw` divided by its own
column maximum when that is positive, else 0. -/
def specialtyScore (merged : List Merged) (x : Merged) : Rat :=
  if 0 < listMax (merged.map (spec_raw merged)) then
    spec_raw merged x / listMax (merged.map (spec_raw merged))
  else 0

/-- A fully scored row: the aggregate columns of `grp` together with the
five component score columns assigned in lines 107-110 and 130. -/
structure Scored where
  coach : String
  sessions : Nat
  students_covered : Nat
  total_minutes : Rat
  recency_score : Rat
  volume_score : Rat
  coverage_score : Rat
  minutes_score : Rat
  specialty_score : Rat
deriving DecidableEq, Repr

/-- Score assignment for one merged row (lines 107-110 and 130).  The
three `norm` columns are normalized by maxima taken over `grp` — the
pre-merge aggregate table — exactly as the source computes them before the
merge; `coverage_score` divides by the roster size floored at 1. -/
def scoreOf (grp : List Agg) (rosterSize : Nat) (merged : List Merged)
    (x : Merged) : Scored :=
  { coach := x.agg.coach,
    sessions := x.agg.sessions,
    students_covered := x.agg.students_covered,
    total_minutes := x.agg.total_minutes,
    recency_score := norm (grp.map (fun g => g.recency_sum)) x.agg.recency_sum,
    volume_score := norm (grp.map (fun g => (g.sessions : Rat))) (x.agg.sessions : Rat),
    coverage_score := (x.agg.students_covered : Rat) / (max rosterSize 1 : Nat),
    minutes_score := norm (grp.map (fun g => g.total_minutes)) x.agg.total_minutes,
    specialty_score := specialtyScore merged x }

/-- The scored table: lines 91-130 after the roster filter. -/
def scoredRows (recencyW : Nat → Rat) (asOf : Int) (event : Option String)
    (d : List Drill) (rosterSize : Nat) (coaches : List CoachProfile) :
    List Scored :=
  let grp := aggRows recencyW asOf d
  let merged := mergeProfiles event grp coaches
  merged.map (scoreOf grp rosterSize merged)

/-- The `combined_score` column (lines 134-140): the weighted sum of the
five component scores of a row. -/
def combined_score (w : Weights) (x : Scored) : Rat :=
  w.recency * x.recency_score + w.volume * x.volume_score +
    w.coverage * x.coverage_score + w.minutes * x.minutes_score +
    w.specialty * x.specialty_score

instance combinedLeDecidable (w : Weights) :
    DecidableRel (fun a b : Scored => combined_score w a ≤ combined_score w b) :=
  fun a b => inferInstanceAs (Decidable (combined_score w a ≤ combined_score w b))

instance combinedLeTotal (w : Weights) :
    IsTotal Scored (fun a b => combined_score w a ≤ combined_score w b) :=
  ⟨fun a b => le_total (combined_score w a) (combined_score w b)⟩

instance combinedLeTrans (w : Weights) :
    IsTrans Scored (fun a b => combined_score w a ≤ combined_score w b) :=
  ⟨fun _ _ _ hab hbc => le_trans hab hbc⟩

/-- `grp.sort_values("combined_score", ascending=False)` (line 142):
pandas reverses a stable ascending argsort of the key column. -/
def sortDesc (w : Weights) (l : List Scored) : List Scored :=
  (List.insertionSort (fun a b => combined_score w a ≤ combined_score w b) l).reverse

/-- Round half to even, as `np.round` does. -/
def roundHalfEven (q : Rat) : Int :=
  if q - Rat.floor q < 1/2 then Rat.floor q
  else if 1/2 < q - Rat.floor q then Rat.floor q + 1
  else if Rat.floor q % 2 = 0 then Rat.floor q else Rat.floor q + 1

/-- `.round(1)` of line 147. -/
def round1 (q : Rat) : Rat := (roundHalfEven (q * 10) : Rat) / 10

/-- The `notes` column (lines 148-152): flag a coach who covered at least
`max(1, int(0.5 * len(roster_students)))` distinct students. -/
def noteFor (rosterSize : Nat) (covered : Nat) : String :=
  if max 1 (rosterSize / 2) ≤ covered then
    "Worked with majority of group recently"
  else ""

/-- A row of the final result table. -/
structure ScoreRow where
  coach : String
  sessions : Nat
  students_covered : Nat
  total_minutes : Rat
  recency_score : Rat
  volume_score : Rat
  coverage_score : Rat
  minutes_score : Rat
  specialty_score : Rat
  combined_score : Rat
  percent_of_group_covered : Rat
  notes : String
deriving DecidableEq, Repr

/-- Finalize one sorted row: the `combined_score` column of lines 134-140
(whose values the sort key already used) and the presentation columns of
lines 147-152. -/
def toScoreRow (w : Weights) (rosterSize : Nat) (x : Scored) : ScoreRow :=
  { coach := x.coach, sessions := x.sessions,
    students_covered := x.students_covered, total_minutes := x.total_minutes,
    recency_score := x.recency_score, volume_score := x.volume_score,
    coverage_score := x.coverage_score, minutes_score := x.minutes_score,
    specialty_score := x.specialty_score,
    combined_score := combined_score w x,
    percent_of_group_covered := round1 (x.coverage_score * 100),
    notes := noteFor rosterSize x.students_covered }

/-- The ten columns of the empty short-circuit frame (lines 86-89). -/
def baseCols : List String :=
  ["coach", "sessions", "students_covered", "total_minutes", "recency_score",
   "volume_score", "coverage_score", "minutes_score", "specialty_score",
   "combined_score"]

/-- The column selection of the non-empty return (lines 144-153). -/
def fullCols : List String :=
  baseCols ++ ["percent_of_group_covered", "notes"]

/-- A result DataFrame: its column labels and its rows. -/
structure ResultTable where
  cols : List String
  rows : List ScoreRow
deriving DecidableEq, Repr

/-- `compute_scores` (lines 79-153) with the recency-weight column
abstracted as `recencyW` (see the module docstring): filter the drills to
the roster, short-circuit to an empty ten-column frame when nothing is
left, otherwise aggregate, score, merge specialty data, drop rows below
the session bar, combine, sort descending and add the presentation
columns. -/
def compute_scores (drills : List Drill) (roster : List String)
    (coaches : List CoachProfile) (recencyW : Nat → Rat) (asOf : Int)
    (event : Option String) (min_sessions : Nat)
    (weights : WeightOverrides) : ResultTable :=
  let rs := roster_students roster
  let d := filterToRoster drills roster
  if d.isEmpty then
    { cols := baseCols, rows := [] }
  else
    let scored := scoredRows recencyW asOf event d rs.length coaches
    let kept := scored.filter (fun x => min_sessions ≤ x.sessions)
    let w := mergeWeights weights
    { cols := fullCols,
      rows := (sortDesc w kept).map (toScoreRow w rs.length) }

/-- `exponential_recency_weight` (lines 76-77) over the reals:
`0.5 ** (days_ago / max(half_life_days, 0.0001))`. -/
noncomputable def exponential_recency_weight (days_ago half_life_days : ℝ) : ℝ :=
  (0.5 : ℝ) ^ (days_ago / max half_life_days 0.0001)

/-! ### A division-checked twin of the pipeline

Python raises `ZeroDivisionError` on division by zero; Lean's field
division totalizes it.  To state that every division of `compute_scores`
is reached only with a nonzero denominator, each division site below is
replaced by `cdiv`, which fails on a zero denominator; the totality claim
is that this twin never fails and agrees with `compute_scores`. -/

/-- Division that fails (as Python would) on a zero denominator. -/
def cdiv (a b : Rat) : Option Rat := if b = 0 then none else some (a / b)

/-- `norm` with its division checked. -/
def normChecked (vals : List Rat) (v : Rat) : Option Rat :=
  if listMax vals ≤ 0 then some 0 else cdiv v (listMax vals)

/-- `r_norm` with its division checked. -/
def r_normChecked (merged : List Merged) (x : Merged) : Option Rat :=
  if listMin (ratingVals merged) < listMax (ratingVals merged) then
    cdiv (x.rating.getD 0 - listMin (ratingVals merged))
      (listMax (ratingVals merged) - listMin (ratingVals merged))
  else some 0

/-- `spec_raw` built on the checked `r_norm`. -/
def spec_rawChecked (merged : List Merged) (x : Merged) : Option Rat :=
  (r_normChecked merged x).map
    (fun rn => x.specialty_match.getD 0 * 0.7 + rn * 0.3)

/-- The `specialty_score` column with its divisions checked. -/
def specialtyScoreChecked (merged : List Merged) (x : Merged) : Option Rat := do
  let col ← merged.mapM (spec_rawChecked merged)
  let s ← spec_rawChecked merged x
  if 0 < listMax col then cdiv s (listMax col) else some 0

/-- `scoreOf` with every division checked. -/
def scoreOfChecked (grp : List Agg) (rosterSize : Nat) (merged : List Merged)
    (x : Merged) : Option Scored := do
  let rsc ← normChecked (grp.map (fun g => g.recency_sum)) x.agg.recency_sum
  let vsc ← normChecked (grp.map (fun g => (g.sessions : Rat))) (x.agg.sessions : Rat)
  let cov ← cdiv (x.agg.students_covered : Rat) ((max rosterSize 1 : Nat) : Rat)
  let msc ← normChecked (grp.map (fun g => g.total_minutes)) x.agg.total_minutes
  let sp ← specialtyScoreChecked merged x
  pure { coach := x.agg.coach, sessions := x.agg.sessions,
         students_covered := x.agg.students_covered,
         total_minutes := x.agg.total_minutes,
         recency_score := rsc, volume_score := vsc, coverage_score := cov,
         minutes_score := msc, specialty_score := sp }

/-- `toScoreRow` with the `.round(1)` division checked. -/
def toScoreRowChecked (w : Weights) (rosterSize : Nat) (x : Scored) :
    Option ScoreRow :=
  (cdiv ((roundHalfEven (x.coverage_score * 100 * 10) : Rat)) 10).map
    (fun pct =>
      { coach := x.coach, sessions := x.sessions,
        students_covered := x.students_covered,
        total_minutes := x.total_minutes,
        recency_score := x.recency_score, volume_score := x.volume_score,
        coverage_score := x.coverage_score, minutes_score := x.minutes_score,
        specialty_score := x.specialty_score,
        combined_score := combined_score w x,
        percent_of_group_covered := pct,
        notes := noteFor rosterSize x.students_covered })

/-- `compute_scores` with every division checked: `none` would mean some
division of the source is reached with a zero denominator. -/
def compute_scoresChecked (drills : List Drill) (roster : List String)
    (coaches : List CoachProfile) (recencyW : Nat → Rat) (asOf : Int)
    (event : Option String) (min_sessions : Nat)
    (weights : WeightOverrides) : Option ResultTable :=
  let rs := roster_students roster
  let d := filterToRoster drills roster
  if d.isEmpty then some { cols := baseCols, rows := [] }
  else do
    let grp := aggRows recencyW asOf d
    let merged := mergeProfiles event grp coaches
    let scored ← merged.mapM (scoreOfChecked grp rs.length merged)
    let kept := scored.filter (fun x => min_sessions ≤ x.sessions)
    let w := mergeWeights weights
    let rows ← (sortDesc w kept).mapM (toScoreRowChecked w rs.length)
    pure { cols := fullCols, rows := rows }

/-! ### Column maximum and minimum -/

theorem le_foldl_max (xs : List Rat) : ∀ z : Rat, z ≤ xs.foldl max z := by
  induction xs with
  | nil => intro z; exact le_refl z
  | cons y ys ih => intro z; exact le_trans (le_max_left z y) (ih (max z y))

theorem mem_le_foldl_max (xs : List Rat) :
    ∀ z a : Rat, a ∈ xs → a ≤ xs.foldl max z := by
  induction xs with
  | nil => intro z a h; cases h
  | cons y ys ih =>
    intro z a h
    rcases List.mem_cons.mp h with rfl | h2
    · exact le_trans (le_max_right z a) (le_foldl_max ys (max z a))
    · exact ih (max z y) a h2

theorem foldl_max_le (xs : List Rat) :
    ∀ z c : Rat, z ≤ c → (∀ a ∈ xs, a ≤ c) → xs.foldl max z ≤ c := by
  induction xs with
  | nil => intro z c hz _; exact hz
  | cons y ys ih =>
    intro z c hz h
    exact ih (max z y) c (max_le hz (h y (List.mem_cons_self y ys)))
      (fun a ha => h a (List.mem_cons_of_mem y ha))

theorem foldl_max_mem (xs : List Rat) :
    ∀ z : Rat, xs.foldl max z = z ∨ xs.foldl max z ∈ xs := by
  induction xs with
  | nil => intro z; exact Or.inl rfl
  | cons y ys ih =>
    intro z
    rcases ih (max z y) with h | h
    · rcases max_choice z y with hz | hy
      · exact Or.inl (by rw [List.foldl_cons, h, hz])
      · exact Or.inr (by rw [List.foldl_cons, h, hy]; exact List.mem_cons_self y ys)
    · exact Or.inr (List.mem_cons_of_mem y h)

theorem le_listMax_of_mem {l : List Rat} {a : Rat} (h : a ∈ l) : a ≤ listMax l := by
  cases l with
  | nil => cases h
  | cons x xs =>
    rcases List.mem_cons.mp h with rfl | h2
    · exact le_foldl_max xs a
    · exact mem_le_foldl_max xs x a h2

theorem listMax_le {l : List Rat} {c : Rat} (hne : l ≠ [])
    (h : ∀ b ∈ l, b ≤ c) : listMax l ≤ c := by
  cases l with
  | nil => exact absurd rfl hne
  | cons x xs =>
    exact foldl_max_le xs x c (h x (List.mem_cons_self x xs))
      (fun a ha => h a (List.mem_cons_of_mem x ha))

theorem listMax_mem {l : List Rat} (hne : l ≠ []) : listMax l ∈ l := by
  cases l with
  | nil => exact absurd rfl hne
  | cons x xs =>
    rcases foldl_max_mem xs x with h | h
    · rw [listMax, h]; exact List.mem_cons_self x xs
    · exact List.mem_cons_of_mem x h

theorem foldl_min_le (xs : List Rat) : ∀ z : Rat, xs.foldl min z ≤ z := by
  induction xs with
  | nil => intro z; exact le_refl z
  | cons y ys ih => intro z; exact le_trans (ih (min z y)) (min_le_left z y)

theorem foldl_min_le_mem (xs : List Rat) :
    ∀ z a : Rat, a ∈ xs → xs.foldl min z ≤ a := by
  induction xs with
  | nil => intro z a h; cases h
  | cons y ys ih =>
    intro z a h
    rcases List.mem_cons.mp h with rfl | h2
    · exact le_trans (foldl_min_le ys (min z a)) (min_le_right z a)
    · exact ih (min z y) a h2

theorem foldl_min_mem (xs : List Rat) :
    ∀ z : Rat, xs.foldl min z = z ∨ xs.foldl min z ∈ xs := by
  induction xs with
  | nil => intro z; exact Or.inl rfl
  | cons y ys ih =>
    intro z
    rcases ih (min z y) with h | h
    · rcases min_choice z y with hz | hy
      · exact Or.inl (by rw [List.foldl_cons, h, hz])
      · exact Or.inr (by rw [List.foldl_cons, h, hy]; exact List.mem_cons_self y ys)
    · exact Or.inr (List.mem_cons_of_mem y h)

theorem listMin_le_of_mem {l : List Rat} {a : Rat} (h : a ∈ l) : listMin l ≤ a := by
  cases l with
  | nil => cases h
  | cons x xs =>
    rcases List.mem_cons.mp h with rfl | h2
    · exact foldl_min_le xs a
    · exact foldl_min_le_mem xs x a h2

theorem listMin_mem {l : List Rat} (hne : l ≠ []) : listMin l ∈ l := by
  cases l with
  | nil => exact absurd rfl hne
  | cons x xs =>
    rcases foldl_min_mem xs x with h | h
    · rw [listMin, h]; exact List.mem_cons_self x xs
    · exact List.mem_cons_of_mem x h

theorem listMax_of_forall_eq {l : List Rat} {c : Rat} (hne : l ≠ [])
    (h : ∀ a ∈ l, a = c) : listMax l = c :=
  h (listMax l) (listMax_mem hne)

theorem listMin_of_forall_eq {l : List Rat} {c : Rat} (hne : l ≠ [])
    (h : ∀ a ∈ l, a = c) : listMin l = c :=
  h (listMin l) (listMin_mem hne)

/-! ### Bounds of the normalizer -/

theorem norm_nonneg_of {vals : List Rat} {v : Rat} (hv : 0 ≤ v) :
    0 ≤ norm vals v := by
  unfold norm
  by_cases h : listMax vals ≤ 0
  · rw [if_pos h]
  · rw [if_neg h]
    exact div_nonneg hv (le_of_lt (not_le.mp h))

theorem norm_le_one_of_mem {vals : List Rat} {v : Rat} (hv : v ∈ vals) :
    norm vals v ≤ 1 := by
  unfold norm
  by_cases h : listMax vals ≤ 0
  · rw [if_pos h]; exact zero_le_one
  · rw [if_neg h]
    exact (div_le_one (not_le.mp h)).mpr (le_listMax_of_mem hv)

/-! ### The key sort and the descending sort -/

theorem insertStr_perm (a : String) (l : List String) :
    (insertStr a l).Perm (a :: l) := by
  induction l with
  | nil => exact List.Perm.refl [a]
  | cons b t ih =>
    by_cases h : strLe a b
    · simp [insertStr, h]
    · simp only [insertStr, h, Bool.false_eq_true, if_false]
      exact (ih.cons b).trans (List.Perm.swap a b t)

theorem sortStrings_perm (l : List String) : (sortStrings l).Perm l := by
  induction l with
  | nil => exact List.Perm.refl []
  | cons a t ih => exact (insertStr_perm a (sortStrings t)).trans (ih.cons a)

theorem sortDesc_perm (w : Weights) (l : List Scored) : (sortDesc w l).Perm l :=
  (List.reverse_perm _).trans (List.perm_insertionSort _ l)

/-- Every row of a `compute_scores` result is the finalization of the score
of some merged aggregate row that cleared the session bar. -/
theorem mem_rows_shape {drills : List Drill} {roster : List String}
    {coaches : List CoachProfile} {recencyW : Nat → Rat} {asOf : Int}
    {event : Option String} {m : Nat} {o : WeightOverrides} {row : ScoreRow}
    (h : row ∈ (compute_scores drills roster coaches recencyW asOf event m o).rows) :
    ∃ y ∈ mergeProfiles event
        (aggRows recencyW asOf (filterToRoster drills roster)) coaches,
      m ≤ y.agg.sessions ∧
      row = toScoreRow (mergeWeights o) (roster_students roster).length
        (scoreOf (aggRows recencyW asOf (filterToRoster drills roster))
          (roster_students roster).length
          (mergeProfiles event
            (aggRows recencyW asOf (filterToRoster drills roster)) coaches) y) := by
  by_cases hd : (filterToRoster drills roster).isEmpty
  · simp [compute_scores, hd] at h
  · simp only [compute_scores, hd, Bool.false_eq_true, if_false] at h
    rw [List.mem_map] at h
    obtain ⟨x, hx, rfl⟩ := h
    rw [(sortDesc_perm _ _).mem_iff, List.mem_filter] at hx
    obtain ⟨hxs, hms⟩ := hx
    simp only [scoredRows, List.mem_map] at hxs
    obtain ⟨y, hy, rfl⟩ := hxs
    refine ⟨y, hy, ?_, rfl⟩
    simpa [scoreOf] using hms

/-! ### C2: the empty-filter short circuit -/

/-- C2 counterexample: an input whose roster filter is empty yields a
zero-row table carrying only the ten core columns — the
`percent_of_group_covered` and `notes` columns the claim requires are
absent. -/
theorem c2_empty_missing_presentation_cols_cx :
    (compute_scores [⟨"b", "X", some 0, 10, "d"⟩] ["a"] [] (fun _ => 1) 0
        none 1 noOverrides).rows = [] ∧
    (compute_scores [⟨"b", "X", some 0, 10, "d"⟩] ["a"] [] (fun _ => 1) 0
        none 1 noOverrides).cols = baseCols ∧
    "percent_of_group_covered" ∉ baseCols ∧ "notes" ∉ baseCols := by
  decide

/-- C2 (amended): if filtering the drill records to the roster leaves
nothing, `compute_scores` returns, without error, an empty table (zero
rows) whose columns are the ten core output columns; the
`percent_of_group_covered` and `notes` columns are absent from this empty
result. -/
theorem c2_empty_filter_shape (drills : List Drill) (roster : List String)
    (coaches : List CoachProfile) (recencyW : Nat → Rat) (asOf : Int)
    (event : Option String) (m : Nat) (o : WeightOverrides)
    (h : filterToRoster drills roster = []) :
    compute_scores drills roster coaches recencyW asOf event m o =
      { cols := baseCols, rows := [] } := by
  simp [compute_scores, h]

/-- C2 witness: a concrete input with an empty filtered set. -/
theorem c2_empty_filter_shape_witness :
    filterToRoster [⟨"b", "X", some 0, 10, "d"⟩] ["a"] = [] ∧
    compute_scores [⟨"b", "X", some 0, 10, "d"⟩] ["a"] [] (fun _ => 1) 0
        none 1 noOverrides = { cols := baseCols, rows := [] } :=
  ⟨by decide,
   c2_empty_filter_shape [⟨"b", "X", some 0, 10, "d"⟩] ["a"] [] (fun _ => 1) 0
     none 1 noOverrides (by decide)⟩

/-! ### C8: monotonicity of the minutes normalization -/

theorem norm_mono_at (pre post : List Rat) {a b : Rat} (hab : a ≤ b) :
    norm (pre ++ a :: post) a ≤ norm (pre ++ b :: post) b := by
  have hne1 : pre ++ a :: post ≠ [] := by simp
  have hne2 : pre ++ b :: post ≠ [] := by simp
  have haL : a ∈ pre ++ a :: post := by simp
  have hbL : b ∈ pre ++ b :: post := by simp
  have hM12 : listMax (pre ++ a :: post) ≤ listMax (pre ++ b :: post) := by
    refine listMax_le hne1 ?_
    intro x hx
    rcases List.mem_append.mp hx with hx | hx
    · exact le_listMax_of_mem (by simp [hx])
    · rcases List.mem_cons.mp hx with rfl | hx
      · exact le_trans hab (le_listMax_of_mem hbL)
      · exact le_listMax_of_mem (by simp [hx])
  by_cases h2 : listMax (pre ++ b :: post) ≤ 0
  · have h1 : listMax (pre ++ a :: post) ≤ 0 := le_trans hM12 h2
    unfold norm
    rw [if_pos h1, if_pos h2]
  · push_neg at h2
    by_cases h1 : listMax (pre ++ a :: post) ≤ 0
    · have hb : 0 < b := by
        by_contra hb
        push_neg at hb
        have hall : listMax (pre ++ b :: post) ≤ 0 := by
          refine listMax_le hne2 ?_
          intro x hx
          rcases List.mem_append.mp hx with hx | hx
          · exact le_trans (le_listMax_of_mem (l := pre ++ a :: post) (by simp [hx])) h1
          · rcases List.mem_cons.mp hx with rfl | hx
            · exact hb
            · exact le_trans (le_listMax_of_mem (l := pre ++ a :: post) (by simp [hx])) h1
        exact absurd hall (not_le.mpr h2)
      unfold norm
      rw [if_pos h1, if_neg (not_le.mpr h2)]
      exact div_nonneg (le_of_lt hb) (le_of_lt h2)
    · push_neg at h1
      rcases eq_or_lt_of_le hM12 with hEq | hLt
      · unfold norm
        rw [if_neg (not_le.mpr h1), if_neg (not_le.mpr h2), ← hEq]
        gcongr
      · have hb : listMax (pre ++ b :: post) = b := by
          rcases List.mem_append.mp (listMax_mem hne2) with hx | hx
          · exact absurd (le_listMax_of_mem (l := pre ++ a :: post) (by simp [hx]))
              (not_le.mpr hLt)
          · rcases List.mem_cons.mp hx with h | hx
            · exact h
            · exact absurd (le_listMax_of_mem (l := pre ++ a :: post) (by simp [hx]))
                (not_le.mpr hLt)
        unfold norm
        rw [if_neg (not_le.mpr h1), if_neg (not_le.mpr h2), hb,
          div_self (ne_of_gt (hb ▸ h2))]
        exact (div_le_one h1).mpr (le_listMax_of_mem haL)

/-- C8: increasing one coach's `total_minutes` while every other aggregate
row is held fixed never decreases that coach's `minutes_score` — the
`norm` of lines 101-110 applied to the `total_minutes` column. -/
theorem c8_minutes_score_monotone (pre post : List Agg) (g : Agg)
    (m m2 : Rat) (hm : m ≤ m2) :
    norm ((pre ++ { g with total_minutes := m } :: post).map
        (fun a => a.total_minutes)) m ≤
      norm ((pre ++ { g with total_minutes := m2 } :: post).map
        (fun a => a.total_minutes)) m2 := by
  have e1 : (pre ++ { g with total_minutes := m } :: post).map
      (fun a => a.total_minutes) =
      pre.map (fun a => a.total_minutes) ++
        m :: post.map (fun a => a.total_minutes) := by simp
  have e2 : (pre ++ { g with total_minutes := m2 } :: post).map
      (fun a => a.total_minutes) =
      pre.map (fun a => a.total_minutes) ++
        m2 :: post.map (fun a => a.total_minutes) := by simp
  rw [e1, e2]
  exact norm_mono_at _ _ hm

/-- C8 witness: a concrete two-coach batch. -/
theorem c8_minutes_score_monotone_witness :
    (3 : Rat) ≤ 5 ∧ norm [2, 3] 3 ≤ norm [2, 5] 5 :=
  ⟨by norm_num,
   c8_minutes_score_monotone [⟨"A", 1, 1, 2, 1⟩] [] ⟨"B", 1, 1, 0, 1⟩ 3 5
     (by norm_num)⟩

/-! ### C4: the exponential recency weight -/

/-- C4 counterexample: for `0 < half_life_days < 0.0001` the epsilon floor
of line 77 makes the weight at age = half_life_days differ from 0.5, so
the claimed identity fails for some positive half-life. -/
theorem c4_tiny_half_life_cx :
    exponential_recency_weight 0.00005 0.00005 ≠ 0.5 := by
  have h1 : max (0.00005 : ℝ) 0.0001 = 0.0001 := max_eq_right (by norm_num)
  have h2 : exponential_recency_weight 0.00005 0.00005 =
      (0.5 : ℝ) ^ ((1 : ℝ) / 2) := by
    simp only [exponential_recency_weight, h1]
    norm_num
  have h3 : ((0.5 : ℝ) ^ ((1 : ℝ) / 2)) * ((0.5 : ℝ) ^ ((1 : ℝ) / 2)) =
      0.5 := by
    rw [← Real.rpow_add (by norm_num)]
    rw [show (1 : ℝ) / 2 + 1 / 2 = 1 by norm_num, Real.rpow_one]
  rw [h2]
  intro hEq
  rw [hEq] at h3
  norm_num at h3

/-- C4 (amended): for every age `d ≥ 0` and every half-life, the recency
weight lies in (0, 1], equals 1 at age 0, and is non-increasing in age;
the exact value 0.5 at age = half-life holds for every half-life at or
above the 0.0001 epsilon floor of line 77 (and can fail below it). -/
theorem c4_recency_weight_props (d h : ℝ) (hd : 0 ≤ d) :
    (0 < exponential_recency_weight d h ∧ exponential_recency_weight d h ≤ 1) ∧
    exponential_recency_weight 0 h = 1 ∧
    (0.0001 ≤ h → exponential_recency_weight h h = 0.5) ∧
    ∀ d2 : ℝ, d ≤ d2 →
      exponential_recency_weight d2 h ≤ exponential_recency_weight d h := by
  have hmax : (0 : ℝ) < max h 0.0001 := lt_max_of_lt_right (by norm_num)
  refine ⟨⟨?_, ?_⟩, ?_, ?_, ?_⟩
  · exact Real.rpow_pos_of_pos (by norm_num) _
  · exact Real.rpow_le_one (by norm_num) (by norm_num)
      (div_nonneg hd (le_of_lt hmax))
  · simp only [exponential_recency_weight]
    rw [zero_div, Real.rpow_zero]
  · intro hh
    simp only [exponential_recency_weight]
    rw [max_eq_left hh, div_self (ne_of_gt (lt_of_lt_of_le (by norm_num) hh)),
      Real.rpow_one]
  · intro d2 hd2
    simp only [exponential_recency_weight]
    apply Real.rpow_le_rpow_of_exponent_ge (by norm_num) (by norm_num)
    gcongr

/-- C4 witness: age 3 days, half-life 30 days. -/
theorem c4_recency_weight_props_witness :
    (0 : ℝ) ≤ 3 ∧
    ((0 < exponential_recency_weight 3 30 ∧
        exponential_recency_weight 3 30 ≤ 1) ∧
      exponential_recency_weight 0 30 = 1 ∧
      (0.0001 ≤ (30 : ℝ) → exponential_recency_weight 30 30 = 0.5) ∧
      ∀ d2 : ℝ, 3 ≤ d2 →
        exponential_recency_weight d2 30 ≤ exponential_recency_weight 3 30) :=
  ⟨by norm_num, c4_recency_weight_props 3 30 (by norm_num)⟩

/-! ### C7: the bad-date asymmetry of the aggregator -/

theorem filterMap_recency_w_filter_isSome (recencyW : Nat → Rat) (asOf : Int)
    (l : List Drill) :
    l.filterMap (recency_w recencyW asOf) =
      (l.filter (fun x => x.date.isSome)).filterMap (recency_w recencyW asOf) := by
  induction l with
  | nil => rfl
  | cons x xs ih =>
    cases hx : x.date with
    | none => simp [List.filterMap_cons, recency_w, hx, ih]
    | some t => simp [List.filterMap_cons, recency_w, hx, ih]

/-- C7: appending a qualifying record with an unparseable date increments
its coach's `sessions` and adds its (coerced) minutes to `total_minutes`
but leaves `recency_sum` unchanged; `recency_sum` always equals the
recency sum of the validly dated records alone; and `coerce_types` turns a
malformed or missing minutes value into 0 instead of failing. -/
theorem c7_bad_date_asymmetry (c : String) (l : List Drill) (r : Drill)
    (recencyW : Nat → Rat) (asOf : Int) (raw : RawDrill)
    (hd : r.date = none) (hc : r.coach = c) (hm : raw.minutes = none) :
    (aggregateFor recencyW asOf (l ++ [r]) c).sessions =
      (aggregateFor recencyW asOf l c).sessions + 1 ∧
    (aggregateFor recencyW asOf (l ++ [r]) c).total_minutes =
      (aggregateFor recencyW asOf l c).total_minutes + r.minutes ∧
    (aggregateFor recencyW asOf (l ++ [r]) c).recency_sum =
      (aggregateFor recencyW asOf l c).recency_sum ∧
    (aggregateFor recencyW asOf l c).recency_sum =
      (aggregateFor recencyW asOf (l.filter (fun x => x.date.isSome)) c).recency_sum ∧
    (coerceDrill raw).minutes = 0 := by
  have hfil : (l ++ [r]).filter (fun x => x.coach = c) =
      l.filter (fun x => x.coach = c) ++ [r] := by
    rw [List.filter_append]
    simp [hc]
  refine ⟨?_, ?_, ?_, ?_, ?_⟩
  · simp [aggregateFor, hfil]
  · simp [aggregateFor, hfil]
  · simp [aggregateFor, hfil, List.filterMap_append, recency_w, hd]
  · simp only [aggregateFor]
    rw [filterMap_recency_w_filter_isSome recencyW asOf
      (l.filter (fun x => x.coach = c))]
    simp only [List.filter_filter]
    rw [List.filter_congr (fun x _ => by rw [Bool.and_comm])]
  · simp [coerceDrill, hm]

/-- C7 witness: one well-dated record plus one undated record for the same
coach, and one raw row with malformed minutes. -/
theorem c7_bad_date_asymmetry_witness :
    (⟨"b", "X", none, 5, "d"⟩ : Drill).date = none ∧
    (⟨"b", "X", none, 5, "d"⟩ : Drill).coach = "X" ∧
    (⟨"z", "Y", none, none, "d"⟩ : RawDrill).minutes = none ∧
    ((aggregateFor (fun _ => 1) 0
        ([⟨"a", "X", some 0, 10, "d"⟩] ++ [⟨"b", "X", none, 5, "d"⟩]) "X").sessions =
      (aggregateFor (fun _ => 1) 0 [⟨"a", "X", some 0, 10, "d"⟩] "X").sessions + 1 ∧
    (aggregateFor (fun _ => 1) 0
        ([⟨"a", "X", some 0,  10, "d"⟩] ++ [⟨"b", "X", none, 5, "d"⟩]) "X").total_minutes =
      (aggregateFor (fun _ => 1) 0 [⟨"a", "X", some 0, 10, "d"⟩] "X").total_minutes +
        (⟨"b", "X", none, 5, "d"⟩ : Drill).minutes ∧
    (aggregateFor (fun _ => 1) 0
        ([⟨"a", "X", some 0, 10, "d"⟩] ++ [⟨"b", "X", none, 5, "d"⟩]) "X").recency_sum =
      (aggregateFor (fun _ => 1) 0 [⟨"a", "X", some 0, 10, "d"⟩] "X").recency_sum ∧
    (aggregateFor (fun _ => 1) 0 [⟨"a", "X", some 0, 10, "d"⟩] "X").recency_sum =
      (aggregateFor (fun _ => 1) 0
        ([⟨"a", "X", some 0, 10, "d"⟩].filter (fun x => x.date.isSome)) "X").recency_sum ∧
    (coerceDrill ⟨"z", "Y", none, none, "d"⟩).minutes = 0) :=
  ⟨rfl, rfl, rfl,
   c7_bad_date_asymmetry "X" [⟨"a", "X", some 0, 10, "d"⟩] ⟨"b", "X", none, 5, "d"⟩
     (fun _ => 1) 0 ⟨"z", "Y", none, none, "d"⟩ rfl rfl rfl⟩

/-! ### C6: the session bar is applied after normalization -/

/-- C6: a coach's row survives the `min_sessions` bar exactly when the
same row (same scores: the sub-threshold coaches still participated in
every batch maximum) appears in the unfiltered result, and its session
count clears the bar.  In particular every returned row has
`sessions ≥ min_sessions`, and the bar changes no score of the remaining
rows. -/
theorem c6_min_sessions_post_norm (drills : List Drill) (roster : List String)
    (coaches : List CoachProfile) (recencyW : Nat → Rat) (asOf : Int)
    (event : Option String) (m : Nat) (o : WeightOverrides) (row : ScoreRow) :
    row ∈ (compute_scores drills roster coaches recencyW asOf event m o).rows ↔
      row ∈ (compute_scores drills roster coaches recencyW asOf event 0 o).rows ∧
        m ≤ row.sessions := by
  by_cases hd : (filterToRoster drills roster).isEmpty
  · simp [compute_scores, hd]
  · simp only [compute_scores, hd, Bool.false_eq_true, if_false]
    constructor
    · intro h
      rw [List.mem_map] at h
      obtain ⟨x, hx, rfl⟩ := h
      rw [(sortDesc_perm _ _).mem_iff, List.mem_filter] at hx
      obtain ⟨hxs, hms⟩ := hx
      have hsx : m ≤ x.sessions := by simpa using hms
      refine ⟨?_, by simpa [toScoreRow] using hsx⟩
      rw [List.mem_map]
      refine ⟨x, ?_, rfl⟩
      rw [(sortDesc_perm _ _).mem_iff, List.mem_filter]
      exact ⟨hxs, by simp⟩
    · rintro ⟨h, hms⟩
      rw [List.mem_map] at h ⊢
      obtain ⟨x, hx, rfl⟩ := h
      rw [(sortDesc_perm _ _).mem_iff, List.mem_filter] at hx
      refine ⟨x, ?_, rfl⟩
      rw [(sortDesc_perm _ _).mem_iff, List.mem_filter]
      refine ⟨hx.1, ?_⟩
      simpa [toScoreRow] using hms

/-! ### C3: descending sort, tie order -/

/-- C3 counterexample: two coaches with identical records tie on
`combined_score`; the aggregation step emits them in ascending coach order
`[A, B]`, but the result lists them as `[B, A]`: the descending sort
(a reversed stable ascending argsort) reverses tie order instead of
retaining it. -/
theorem c3_tie_order_reversed_cx :
    ((aggRows (fun _ => 1) 0 (filterToRoster
        [⟨"s", "A", some 0, 30, "x"⟩, ⟨"s", "B", some 0, 30, "x"⟩] ["s"])).map
      (fun g => g.coach)) = ["A", "B"] ∧
    ((compute_scores [⟨"s", "A", some 0, 30, "x"⟩, ⟨"s", "B", some 0, 30, "x"⟩]
        ["s"] [] (fun _ => 1) 0 none 1 noOverrides).rows.map
      (fun r => r.combined_score)) = [0.95, 0.95] ∧
    ((compute_scores [⟨"s", "A", some 0, 30, "x"⟩, ⟨"s", "B", some 0, 30, "x"⟩]
        ["s"] [] (fun _ => 1) 0 none 1 noOverrides).rows.map
      (fun r => r.coach)) = ["B", "A"] := by
  with_unfolding_all decide

/-- C3 (amended): the result is sorted by `combined_score` in descending
order; ties do not retain the order produced by the aggregation step — the
sort reverses a stable ascending argsort, so equal-score rows appear in
reverse of the aggregation order. -/
theorem c3_sorted_desc (drills : List Drill) (roster : List String)
    (coaches : List CoachProfile) (recencyW : Nat → Rat) (asOf : Int)
    (event : Option String) (m : Nat) (o : WeightOverrides) :
    ((compute_scores drills roster coaches recencyW asOf event m o).rows).Pairwise
      (fun x y => y.combined_score ≤ x.combined_score) := by
  by_cases hd : (filterToRoster drills roster).isEmpty
  · simp [compute_scores, hd]
  · simp only [compute_scores, hd, Bool.false_eq_true, if_false]
    rw [List.pairwise_map]
    unfold sortDesc
    rw [List.pairwise_reverse]
    exact List.Pairwise.imp (fun h => h)
      (List.sorted_insertionSort
        (fun a b => combined_score (mergeWeights o) a ≤
          combined_score (mergeWeights o) b) _)

/-! ### C1: bounds of the component scores -/

theorem aggregateFor_recency_sum (recencyW : Nat → Rat) (asOf : Int)
    (d : List Drill) (c : String) :
    (aggregateFor recencyW asOf d c).recency_sum =
      ((d.filter (fun r => r.coach = c)).filterMap (recency_w recencyW asOf)).sum := rfl

theorem aggregateFor_total_minutes (recencyW : Nat → Rat) (asOf : Int)
    (d : List Drill) (c : String) :
    (aggregateFor recencyW asOf d c).total_minutes =
      ((d.filter (fun r => r.coach = c)).map (fun r => r.minutes)).sum := rfl

theorem aggregateFor_students_covered (recencyW : Nat → Rat) (asOf : Int)
    (d : List Drill) (c : String) :
    (aggregateFor recencyW asOf d c).students_covered =
      (((d.filter (fun r => r.coach = c)).map
        (fun r => toLowerStr r.student)).dedup).length := rfl

theorem mem_aggRows {recencyW : Nat → Rat} {asOf : Int} {d : List Drill}
    {g : Agg} (hg : g ∈ aggRows recencyW asOf d) :
    ∃ c ∈ coachKeys d, g = aggregateFor recencyW asOf d c := by
  unfold aggRows at hg
  rw [List.mem_map] at hg
  obtain ⟨c, hc, rfl⟩ := hg
  exact ⟨c, hc, rfl⟩

theorem mem_mergeProfiles_agg {event : Option String} {grp : List Agg}
    {coaches : List CoachProfile} {x : Merged}
    (hx : x ∈ mergeProfiles event grp coaches) : x.agg ∈ grp := by
  unfold mergeProfiles at hx
  rw [List.mem_flatMap] at hx
  obtain ⟨g, hg, hx⟩ := hx
  unfold mergeBlock at hx
  rcases hfc : coaches.filter (fun p => p.coach = g.coach) with _ | ⟨p, ps⟩
  · rw [hfc, List.mem_singleton] at hx
    rw [hx]
    exact hg
  · rw [hfc, List.mem_map] at hx
    obtain ⟨q, _, hxe⟩ := hx
    rw [← hxe]
    exact hg

theorem mem_mergeProfiles_match {event : Option String} {grp : List Agg}
    {coaches : List CoachProfile} {x : Merged}
    (hx : x ∈ mergeProfiles event grp coaches) :
    x.specialty_match = none ∨
      ∃ p ∈ coaches, x.specialty_match = some (specialty_match event p) := by
  unfold mergeProfiles at hx
  rw [List.mem_flatMap] at hx
  obtain ⟨g, hg, hx⟩ := hx
  unfold mergeBlock at hx
  rcases hfc : coaches.filter (fun p => p.coach = g.coach) with _ | ⟨p, ps⟩
  · rw [hfc, List.mem_singleton] at hx
    rw [hx]
    exact Or.inl rfl
  · rw [hfc, List.mem_map] at hx
    obtain ⟨q, hq, hxe⟩ := hx
    refine Or.inr ⟨q, ?_, ?_⟩
    · have hq2 : q ∈ coaches.filter (fun p => p.coach = g.coach) := by
        rw [hfc]; exact hq
      exact List.mem_of_mem_filter hq2
    · rw [← hxe]

theorem specialty_match_zero_or_one (event : Option String) (p : CoachProfile) :
    specialty_match event p = 0 ∨ specialty_match event p = 1 := by
  unfold specialty_match
  cases event with
  | none => exact Or.inl rfl
  | some e =>
    by_cases h : toLowerStr e ∈ specialtyTags (toLowerStr (p.specialties.getD ""))
    · exact Or.inr (if_pos h)
    · exact Or.inl (if_neg h)

theorem merged_match_nonneg {event : Option String} {grp : List Agg}
    {coaches : List CoachProfile} {x : Merged}
    (hx : x ∈ mergeProfiles event grp coaches) :
    0 ≤ x.specialty_match.getD 0 := by
  rcases mem_mergeProfiles_match hx with h | ⟨p, _, h⟩
  · simp [h]
  · rw [h]
    rcases specialty_match_zero_or_one event p with h1 | h1 <;> simp [h1]

theorem r_norm_nonneg {merged : List Merged} {x : Merged} (hx : x ∈ merged) :
    0 ≤ r_norm merged x := by
  unfold r_norm
  by_cases h : listMin (ratingVals merged) < listMax (ratingVals merged)
  · rw [if_pos h]
    apply div_nonneg
    · rw [sub_nonneg]
      exact listMin_le_of_mem (List.mem_map_of_mem _ hx)
    · rw [sub_nonneg]
      exact le_of_lt h
  · rw [if_neg h]

theorem spec_raw_nonneg {event : Option String} {grp : List Agg}
    {coaches : List CoachProfile} {x : Merged}
    (hx : x ∈ mergeProfiles event grp coaches) :
    0 ≤ spec_raw (mergeProfiles event grp coaches) x := by
  unfold spec_raw
  exact add_nonneg (mul_nonneg (merged_match_nonneg hx) (by norm_num))
    (mul_nonneg (r_norm_nonneg hx) (by norm_num))

theorem specialtyScore_nonneg {event : Option String} {grp : List Agg}
    {coaches : List CoachProfile} {x : Merged}
    (hx : x ∈ mergeProfiles event grp coaches) :
    0 ≤ specialtyScore (mergeProfiles event grp coaches) x := by
  unfold specialtyScore
  by_cases h : 0 < listMax ((mergeProfiles event grp coaches).map
      (spec_raw (mergeProfiles event grp coaches)))
  · rw [if_pos h]
    exact div_nonneg (spec_raw_nonneg hx) (le_of_lt h)
  · rw [if_neg h]

theorem specialtyScore_le_one {merged : List Merged} {x : Merged}
    (hx : x ∈ merged) : specialtyScore merged x ≤ 1 := by
  unfold specialtyScore
  by_cases h : 0 < listMax (merged.map (spec_raw merged))
  · rw [if_pos h]
    exact (div_le_one h).mpr (le_listMax_of_mem (List.mem_map_of_mem _ hx))
  · rw [if_neg h]
    exact zero_le_one

theorem recency_sum_nonneg {recencyW : Nat → Rat} (hw : ∀ n, 0 ≤ recencyW n)
    (asOf : Int) (d : List Drill) (c : String) :
    0 ≤ (aggregateFor recencyW asOf d c).recency_sum := by
  rw [aggregateFor_recency_sum]
  apply List.sum_nonneg
  intro a ha
  rw [List.mem_filterMap] at ha
  obtain ⟨r, _, hr⟩ := ha
  unfold recency_w at hr
  cases hd : r.date with
  | none => rw [hd] at hr; cases hr
  | some t =>
    rw [hd] at hr
    simp only [Option.map_some'] at hr
    rw [← Option.some_inj.mp hr]
    exact hw _

theorem total_minutes_nonneg {recencyW : Nat → Rat} {asOf : Int}
    {d : List Drill} (hmin : ∀ r ∈ d, 0 ≤ r.minutes) (c : String) :
    0 ≤ (aggregateFor recencyW asOf d c).total_minutes := by
  rw [aggregateFor_total_minutes]
  apply List.sum_nonneg
  intro a ha
  rw [List.mem_map] at ha
  obtain ⟨r, hr, rfl⟩ := ha
  exact hmin r (List.mem_of_mem_filter hr)

theorem students_covered_le {drills : List Drill} {roster : List String}
    (recencyW : Nat → Rat) (asOf : Int) (c : String)
    (htrim : ∀ r ∈ drills, stripStr r.student = r.student) :
    (aggregateFor recencyW asOf (filterToRoster drills roster) c).students_covered ≤
      (roster_students roster).length := by
  rw [aggregateFor_students_covered]
  have hsub : (((filterToRoster drills roster).filter
      (fun r => r.coach = c)).map (fun r => toLowerStr r.student)).dedup ⊆
      roster_students roster := by
    intro a ha
    rw [List.mem_dedup, List.mem_map] at ha
    obtain ⟨r, hr, rfl⟩ := ha
    have hrd : r ∈ filterToRoster drills roster := List.mem_of_mem_filter hr
    unfold filterToRoster at hrd
    rw [List.mem_filter] at hrd
    obtain ⟨hrdr, hmem⟩ := hrd
    rw [← htrim r hrdr]
    simpa using hmem
  exact (List.subperm_of_subset (List.nodup_dedup _) hsub).length_le

/-- C1 counterexample: the roster filter strips and lowercases student
identifiers (line 84) but `students_covered` only lowercases them
(line 96), so `"alice"` and `" alice"` count as two distinct covered
students against a one-student roster, and `coverage_score = 2 > 1`. -/
theorem c1_coverage_gt_one_cx :
    ((compute_scores
        [⟨"alice", "X", some 0, 30, "d"⟩, ⟨" alice", "X", some 0, 30, "d"⟩]
        ["alice"] [] (fun _ => 1) 0 none 1 noOverrides).rows.map
      (fun r => (r.students_covered, r.coverage_score))) = [(2, 2)] ∧
    (roster_students ["alice"]).length = 1 ∧ (1 : Rat) < 2 := by
  with_unfolding_all decide

/-- C1 (amended): for nonnegative recency weights (which the real weight
function always produces), nonnegative minutes, and drill student
identifiers free of leading/trailing whitespace, every component score of
every returned row lies in [0, 1] and `students_covered` never exceeds the
number of distinct roster students.  Without the whitespace condition
`students_covered` can exceed the roster size and `coverage_score` can
exceed 1 (see the counterexample); the other four scores are bounded
regardless. -/
theorem c1_component_scores_bounded (drills : List Drill)
    (roster : List String) (coaches : List CoachProfile)
    (recencyW : Nat → Rat) (asOf : Int) (event : Option String) (m : Nat)
    (o : WeightOverrides) (hw : ∀ n, 0 ≤ recencyW n)
    (hmin : ∀ r ∈ drills, 0 ≤ r.minutes)
    (htrim : ∀ r ∈ drills, stripStr r.student = r.student) :
    ∀ row ∈ (compute_scores drills roster coaches recencyW asOf event m o).rows,
      (0 ≤ row.recency_score ∧ row.recency_score ≤ 1) ∧
      (0 ≤ row.volume_score ∧ row.volume_score ≤ 1) ∧
      (0 ≤ row.coverage_score ∧ row.coverage_score ≤ 1) ∧
      (0 ≤ row.minutes_score ∧ row.minutes_score ≤ 1) ∧
      (0 ≤ row.specialty_score ∧ row.specialty_score ≤ 1) ∧
      row.students_covered ≤ (roster_students roster).length := by
  intro row hrow
  obtain ⟨y, hy, _, hrfl⟩ := mem_rows_shape hrow
  subst hrfl
  have hagg := mem_mergeProfiles_agg hy
  obtain ⟨c, _, hgc⟩ := mem_aggRows hagg
  have hminf : ∀ r ∈ filterToRoster drills roster, 0 ≤ r.minutes := by
    intro r hr
    unfold filterToRoster at hr
    exact hmin r (List.mem_of_mem_filter hr)
  have hcov : y.agg.students_covered ≤ (roster_students roster).length := by
    rw [hgc]
    exact students_covered_le recencyW asOf c htrim
  simp only [toScoreRow, scoreOf]
  refine ⟨⟨?_, ?_⟩, ⟨?_, ?_⟩, ⟨?_, ?_⟩, ⟨?_, ?_⟩, ⟨?_, ?_⟩, hcov⟩
  · refine norm_nonneg_of ?_
    rw [hgc]
    exact recency_sum_nonneg hw asOf _ c
  · exact norm_le_one_of_mem (List.mem_map_of_mem _ hagg)
  · exact norm_nonneg_of (Nat.cast_nonneg _)
  · exact norm_le_one_of_mem (List.mem_map_of_mem _ hagg)
  · exact div_nonneg (Nat.cast_nonneg _) (Nat.cast_nonneg _)
  · have hpos : (0 : Rat) < ((max (roster_students roster).length 1 : Nat) : Rat) := by
      have h1 : (1 : Nat) ≤ max (roster_students roster).length 1 := le_max_right _ _
      exact_mod_cast Nat.lt_of_lt_of_le Nat.zero_lt_one h1
    rw [div_le_one hpos]
    have h2 : y.agg.students_covered ≤ max (roster_students roster).length 1 :=
      le_trans hcov (le_max_left _ _)
    exact_mod_cast h2
  · refine norm_nonneg_of ?_
    rw [hgc]
    exact total_minutes_nonneg hminf c
  · exact norm_le_one_of_mem (List.mem_map_of_mem _ hagg)
  · exact specialtyScore_nonneg hy
  · exact specialtyScore_le_one hy

/-- C1 witness: one clean drill record, roster of one, one profiled
coach. -/
theorem c1_component_scores_bounded_witness :
    (∀ n : Nat, (0 : Rat) ≤ (fun _ => (1 : Rat)) n) ∧
    (∀ r ∈ ([⟨"a", "X", some 0, 10, "d"⟩] : List Drill), 0 ≤ r.minutes) ∧
    (∀ r ∈ ([⟨"a", "X", some 0, 10, "d"⟩] : List Drill),
      stripStr r.student = r.student) ∧
    ∀ row ∈ (compute_scores [⟨"a", "X", some 0, 10, "d"⟩] ["a"]
        [⟨"X", some "ld", some 3⟩] (fun _ => 1) 0 (some "ld") 1
        noOverrides).rows,
      (0 ≤ row.recency_score ∧ row.recency_score ≤ 1) ∧
      (0 ≤ row.volume_score ∧ row.volume_score ≤ 1) ∧
      (0 ≤ row.coverage_score ∧ row.coverage_score ≤ 1) ∧
      (0 ≤ row.minutes_score ∧ row.minutes_score ≤ 1) ∧
      (0 ≤ row.specialty_score ∧ row.specialty_score ≤ 1) ∧
      row.students_covered ≤ (roster_students ["a"]).length :=
  ⟨fun _ => zero_le_one, by with_unfolding_all decide,
   by with_unfolding_all decide,
   c1_component_scores_bounded [⟨"a", "X", some 0, 10, "d"⟩] ["a"]
     [⟨"X", some "ld", some 3⟩] (fun _ => 1) 0 (some "ld") 1 noOverrides
     (fun _ => zero_le_one) (by with_unfolding_all decide)
     (by with_unfolding_all decide)⟩

/-! ### C5: specialty scoring -/

theorem aggregateFor_coach (recencyW : Nat → Rat) (asOf : Int)
    (d : List Drill) (c : String) :
    (aggregateFor recencyW asOf d c).coach = c := rfl

theorem mem_coachKeys {d : List Drill} {c : String} (hc : c ∈ coachKeys d) :
    ∃ r ∈ d, r.coach = c := by
  unfold coachKeys at hc
  rw [(sortStrings_perm _).mem_iff, List.mem_dedup, List.mem_map] at hc
  obtain ⟨r, hr, rfl⟩ := hc
  exact ⟨r, hr, rfl⟩

theorem mem_mergeProfiles_cases {event : Option String} {grp : List Agg}
    {coaches : List CoachProfile} {x : Merged}
    (hx : x ∈ mergeProfiles event grp coaches) :
    (coaches.filter (fun p => p.coach = x.agg.coach) = [] ∧
      x.specialty_match = none ∧ x.rating = none) ∨
    ∃ p ∈ coaches, x.specialty_match = some (specialty_match event p) ∧
      x.rating = p.rating := by
  unfold mergeProfiles at hx
  rw [List.mem_flatMap] at hx
  obtain ⟨g, hg, hx⟩ := hx
  unfold mergeBlock at hx
  rcases hfc : coaches.filter (fun p => p.coach = g.coach) with _ | ⟨p, ps⟩
  · rw [hfc, List.mem_singleton] at hx
    subst hx
    exact Or.inl ⟨hfc, rfl, rfl⟩
  · rw [hfc, List.mem_map] at hx
    obtain ⟨q, hq, hxe⟩ := hx
    subst hxe
    have hq2 : q ∈ coaches.filter (fun p => p.coach = g.coach) := by
      rw [hfc]; exact hq
    exact Or.inr ⟨q, List.mem_of_mem_filter hq2, rfl, rfl⟩

/-- C5: `specialty_match` is 0 for every coach when no event is requested;
with a requested event it is 1 exactly when the lowercased event is one of
the coach's lowercased trimmed comma-separated tags; a degenerate rating
batch (min not below max, which includes the all-equal case, with missing
ratings filled as 0 first) zeroes every normalized rating; and — the
scenario — when the event matches no profiled coach, every coach has a
profile row, and all (0-filled) ratings are equal, every returned
`specialty_score` is 0. -/
theorem c5_specialty_scoring (drills : List Drill) (roster : List String)
    (coaches : List CoachProfile) (recencyW : Nat → Rat) (asOf : Int)
    (event : Option String) (m : Nat) (o : WeightOverrides) (e : String) :
    (∀ p : CoachProfile, specialty_match none p = 0) ∧
    (∀ p : CoachProfile, specialty_match (some e) p = 1 ↔
      toLowerStr e ∈ specialtyTags (toLowerStr (p.specialties.getD ""))) ∧
    (∀ (merged : List Merged) (x : Merged),
      ¬ listMin (ratingVals merged) < listMax (ratingVals merged) →
        r_norm merged x = 0) ∧
    ((∀ p ∈ coaches, specialty_match event p = 0) →
      (∀ p ∈ coaches, ∀ q ∈ coaches, p.rating.getD 0 = q.rating.getD 0) →
      (∀ r ∈ filterToRoster drills roster, ∃ p ∈ coaches, p.coach = r.coach) →
      ∀ row ∈ (compute_scores drills roster coaches recencyW asOf event m o).rows,
        row.specialty_score = 0) := by
  refine ⟨fun p => rfl, ?_, ?_, ?_⟩
  · intro p
    unfold specialty_match
    by_cases h : toLowerStr e ∈ specialtyTags (toLowerStr (p.specialties.getD ""))
    · simp [h]
    · simp [h]
  · intro merged x h
    unfold r_norm
    rw [if_neg h]
  · intro hm hr hall row hrow
    obtain ⟨y, hy, _, hrfl⟩ := mem_rows_shape hrow
    subst hrfl
    simp only [toScoreRow, scoreOf]
    have hmatched : ∀ x ∈ mergeProfiles event
        (aggRows recencyW asOf (filterToRoster drills roster)) coaches,
        ∃ p ∈ coaches, x.specialty_match = some (specialty_match event p) ∧
          x.rating = p.rating := by
      intro x hx
      rcases mem_mergeProfiles_cases hx with ⟨hemp, _, _⟩ | hp
      · exfalso
        obtain ⟨c, hc, hgc⟩ := mem_aggRows (mem_mergeProfiles_agg hx)
        obtain ⟨r, hr2, hrc⟩ := mem_coachKeys hc
        obtain ⟨p, hp, hpc⟩ := hall r hr2
        have hpmem : p ∈ coaches.filter (fun q => q.coach = x.agg.coach) := by
          rw [List.mem_filter]
          refine ⟨hp, ?_⟩
          rw [hgc, aggregateFor_coach]
          simp [hpc, hrc]
        rw [hemp] at hpmem
        cases hpmem
      · exact hp
    obtain ⟨py, hpy, _, hyr⟩ := hmatched y hy
    have hrv : ∀ a ∈ ratingVals (mergeProfiles event
        (aggRows recencyW asOf (filterToRoster drills roster)) coaches),
        a = py.rating.getD 0 := by
      intro a ha
      unfold ratingVals at ha
      rw [List.mem_map] at ha
      obtain ⟨x, hx, rfl⟩ := ha
      obtain ⟨px, hpx, _, hxr⟩ := hmatched x hx
      rw [hxr]
      exact hr px hpx py hpy
    have hne : ratingVals (mergeProfiles event
        (aggRows recencyW asOf (filterToRoster drills roster)) coaches) ≠ [] :=
      List.ne_nil_of_mem (List.mem_map_of_mem _ hy)
    have hminmax : ¬ listMin (ratingVals (mergeProfiles event
        (aggRows recencyW asOf (filterToRoster drills roster)) coaches)) <
        listMax (ratingVals (mergeProfiles event
          (aggRows recencyW asOf (filterToRoster drills roster)) coaches)) := by
      rw [listMax_of_forall_eq hne hrv, listMin_of_forall_eq hne hrv]
      exact lt_irrefl _
    have hraw : ∀ x ∈ mergeProfiles event
        (aggRows recencyW asOf (filterToRoster drills roster)) coaches,
        spec_raw (mergeProfiles event
          (aggRows recencyW asOf (filterToRoster drills roster)) coaches) x = 0 := by
      intro x hx
      obtain ⟨px, hpx, hxm, _⟩ := hmatched x hx
      unfold spec_raw
      rw [hxm]
      simp only [Option.getD_some]
      rw [hm px hpx]
      unfold r_norm
      rw [if_neg hminmax]
      norm_num
    have hmax0 : listMax ((mergeProfiles event
        (aggRows recencyW asOf (filterToRoster drills roster)) coaches).map
        (spec_raw (mergeProfiles event
          (aggRows recencyW asOf (filterToRoster drills roster)) coaches))) = 0 := by
      refine listMax_of_forall_eq (List.ne_nil_of_mem (List.mem_map_of_mem _ hy)) ?_
      intro a ha
      rw [List.mem_map] at ha
      obtain ⟨x, hx, rfl⟩ := ha
      exact hraw x hx
    unfold specialtyScore
    rw [hmax0, if_neg (lt_irrefl 0)]

/-- C5 witness: event "pf" matching neither profile, both profiled coaches
rated 4, every drilled coach profiled. -/
theorem c5_specialty_scoring_witness :
    (∀ p ∈ ([⟨"X", some "ld", some 4⟩, ⟨"Z", some "cx", some 4⟩] :
        List CoachProfile), specialty_match (some "pf") p = 0) ∧
    (∀ p ∈ ([⟨"X", some "ld", some 4⟩, ⟨"Z", some "cx", some 4⟩] :
        List CoachProfile),
      ∀ q ∈ ([⟨"X", some "ld", some 4⟩, ⟨"Z", some "cx", some 4⟩] :
        List CoachProfile), p.rating.getD 0 = q.rating.getD 0) ∧
    (∀ r ∈ filterToRoster [⟨"a", "X", some 0, 10, "d"⟩] ["a"],
      ∃ p ∈ ([⟨"X", some "ld", some 4⟩, ⟨"Z", some "cx", some 4⟩] :
        List CoachProfile), p.coach = r.coach) ∧
    ∀ row ∈ (compute_scores [⟨"a", "X", some 0, 10, "d"⟩] ["a"]
        [⟨"X", some "ld", some 4⟩, ⟨"Z", some "cx", some 4⟩] (fun _ => 1) 0
        (some "pf") 1 noOverrides).rows,
      row.specialty_score = 0 :=
  ⟨by with_unfolding_all decide, by with_unfolding_all decide,
   by with_unfolding_all decide,
   (c5_specialty_scoring [⟨"a", "X", some 0, 10, "d"⟩] ["a"]
      [⟨"X", some "ld", some 4⟩, ⟨"Z", some "cx", some 4⟩] (fun _ => 1) 0
      (some "pf") 1 noOverrides "pf").2.2.2
     (by with_unfolding_all decide) (by with_unfolding_all decide)
     (by with_unfolding_all decide)⟩

/-! ### C9: totality — every division is guarded -/

theorem optionMapM_eq_map {α β : Type} (f : α → Option β) (g : α → β)
    (l : List α) (h : ∀ x ∈ l, f x = some (g x)) :
    l.mapM f = some (l.map g) := by
  induction l with
  | nil => rfl
  | cons a t ih =>
    rw [List.mapM_cons, h a (List.mem_cons_self a t),
      ih (fun x hx => h x (List.mem_cons_of_mem a hx))]
    rfl

theorem normChecked_eq (vals : List Rat) (v : Rat) :
    normChecked vals v = some (norm vals v) := by
  unfold normChecked norm cdiv
  by_cases h : listMax vals ≤ 0
  · rw [if_pos h, if_pos h]
  · rw [if_neg h, if_neg h, if_neg (ne_of_gt (not_le.mp h))]

theorem r_normChecked_eq (merged : List Merged) (x : Merged) :
    r_normChecked merged x = some (r_norm merged x) := by
  unfold r_normChecked r_norm cdiv
  by_cases h : listMin (ratingVals merged) < listMax (ratingVals merged)
  · rw [if_pos h, if_pos h, if_neg (ne_of_gt (sub_pos.mpr h))]
  · rw [if_neg h, if_neg h]

theorem spec_rawChecked_eq (merged : List Merged) (x : Merged) :
    spec_rawChecked merged x = some (spec_raw merged x) := by
  unfold spec_rawChecked spec_raw
  rw [r_normChecked_eq]
  rfl

theorem specialtyScoreChecked_eq (merged : List Merged) (x : Merged) :
    specialtyScoreChecked merged x = some (specialtyScore merged x) := by
  unfold specialtyScoreChecked specialtyScore cdiv
  rw [optionMapM_eq_map _ (spec_raw merged) merged
    (fun z _ => spec_rawChecked_eq merged z), spec_rawChecked_eq]
  by_cases h : 0 < listMax (merged.map (spec_raw merged))
  · simp only [Option.bind_eq_bind, Option.some_bind, if_pos h,
      if_neg (ne_of_gt h)]
  · simp only [Option.bind_eq_bind, Option.some_bind, if_neg h]

theorem scoreOfChecked_eq (grp : List Agg) (n : Nat) (merged : List Merged)
    (x : Merged) :
    scoreOfChecked grp n merged x = some (scoreOf grp n merged x) := by
  have hden : ((max n 1 : Nat) : Rat) ≠ 0 := by
    have h1 : (1 : Nat) ≤ max n 1 := le_max_right _ _
    have h2 : (0 : Nat) < max n 1 := Nat.lt_of_lt_of_le Nat.zero_lt_one h1
    exact_mod_cast Nat.pos_iff_ne_zero.mp h2
  unfold scoreOfChecked scoreOf cdiv
  rw [normChecked_eq, normChecked_eq, normChecked_eq,
    specialtyScoreChecked_eq, if_neg hden]
  rfl

theorem toScoreRowChecked_eq (w : Weights) (n : Nat) (x : Scored) :
    toScoreRowChecked w n x = some (toScoreRow w n x) := by
  unfold toScoreRowChecked toScoreRow round1 cdiv
  rw [if_neg (show (10 : Rat) ≠ 0 by norm_num)]
  rfl

/-- C9: the core is total over its normalized input domain — the
division-checked twin of the pipeline, in which every division fails (as
Python would) on a zero denominator, never fails and agrees with
`compute_scores` on every input: each batch-maximum division is guarded by
a positivity test, the roster size is floored at 1, an equal rating min
and max short-circuits to 0, and the empty filtered set short-circuits to
the empty table. -/
theorem c9_compute_scores_total (drills : List Drill) (roster : List String)
    (coaches : List CoachProfile) (recencyW : Nat → Rat) (asOf : Int)
    (event : Option String) (m : Nat) (o : WeightOverrides) :
    compute_scoresChecked drills roster coaches recencyW asOf event m o =
      some (compute_scores drills roster coaches recencyW asOf event m o) := by
  unfold compute_scoresChecked compute_scores
  by_cases hd : (filterToRoster drills roster).isEmpty
  · rw [if_pos hd, if_pos hd]
  · rw [if_neg hd, if_neg hd]
    unfold scoredRows
    dsimp only
    rw [optionMapM_eq_map _
      (scoreOf (aggRows recencyW asOf (filterToRoster drills roster))
        (roster_students roster).length
        (mergeProfiles event (aggRows recencyW asOf (filterToRoster drills roster))
          coaches))
      _ (fun x _ => scoreOfChecked_eq _ _ _ x)]
    simp only [Option.bind_eq_bind, Option.some_bind]
    rw [optionMapM_eq_map _
      (toScoreRow (mergeWeights o) (roster_students roster).length) _
      (fun x _ => toScoreRowChecked_eq _ _ x)]
    rfl

/-! ### C10: fan-out of the left merge over duplicate profile rows -/

theorem mergeBlock_filter_len (event : Option String)
    (coaches : List CoachProfile) (c : String) (g : Agg) :
    ((mergeBlock event coaches g).filter (fun x => x.agg.coach = c)).length =
      if g.coach = c then
        max (coaches.filter (fun p => p.coach = g.coach)).length 1
      else 0 := by
  unfold mergeBlock
  rcases hfc : coaches.filter (fun p => p.coach = g.coach) with _ | ⟨p, ps⟩ <;>
    rw [hfc]
  · by_cases hgc : g.coach = c <;> simp [hgc]
  · by_cases hgc : g.coach = c
    · rw [if_pos hgc, List.filter_map, List.length_map]
      have hall := List.filter_eq_self.mpr
        (fun (q : CoachProfile) (_ : q ∈ p :: ps) =>
          show ((fun x : Merged => decide (x.agg.coach = c)) ∘ fun p2 =>
              { agg := g, specialty_match := some (specialty_match event p2),
                rating := p2.rating }) q = true by
            simp [Function.comp, hgc])
      rw [hall]
      rw [max_eq_left (by simp : 1 ≤ (p :: ps).length)]
    · rw [if_neg hgc, List.filter_map, List.length_map]
      have hnone := List.filter_eq_nil_iff.mpr
        (fun (q : CoachProfile) (_ : q ∈ p :: ps) =>
          show ¬ ((fun x : Merged => decide (x.agg.coach = c)) ∘ fun p2 =>
              { agg := g, specialty_match := some (specialty_match event p2),
                rating := p2.rating }) q = true by
            simp [Function.comp, hgc])
      rw [hnone]
      rfl

theorem mergeProfiles_filter_len (event : Option String)
    (coaches : List CoachProfile) (c : String) (grp : List Agg) :
    ((mergeProfiles event grp coaches).filter (fun x => x.agg.coach = c)).length =
      ((grp.filter (fun g => g.coach = c)).map
        (fun g => max (coaches.filter (fun p => p.coach = g.coach)).length 1)).sum := by
  induction grp with
  | nil => rfl
  | cons g t ih =>
    have hsplit : mergeProfiles event (g :: t) coaches =
        mergeBlock event coaches g ++ mergeProfiles event t coaches := rfl
    rw [hsplit, List.filter_append, List.length_append,
      mergeBlock_filter_len, ih]
    by_cases hgc : g.coach = c
    · rw [if_pos hgc, List.filter_cons_of_pos (by simpa using hgc),
        List.map_cons, List.sum_cons]
    · rw [if_neg hgc, List.filter_cons_of_neg (by simpa using hgc),
        Nat.zero_add]

theorem coachKeys_nodup (d : List Drill) : (coachKeys d).Nodup :=
  (sortStrings_perm _).nodup_iff.mpr (List.nodup_dedup _)

theorem nodup_filter_eq_single {l : List String} {c : String}
    (hnd : l.Nodup) (hc : c ∈ l) : l.filter (fun x => x = c) = [c] := by
  induction l with
  | nil => cases hc
  | cons a t ih =>
    rw [List.nodup_cons] at hnd
    rcases List.mem_cons.mp hc with rfl | hct
    · rw [List.filter_cons_of_pos (by simp)]
      have ht : t.filter (fun x => x = c) = [] := by
        rw [List.filter_eq_nil_iff]
        intro x hx hxc
        rw [decide_eq_true_iff] at hxc
        exact hnd.1 (hxc ▸ hx)
      rw [ht]
    · have hac : ¬ a = c := fun he => hnd.1 (he ▸ hct)
      rw [List.filter_cons_of_neg (by simpa using hac)]
      exact ih hnd.2 hct

theorem filter_eq_nil_of_not_mem {l : List String} {c : String}
    (hc : c ∉ l) : l.filter (fun x => x = c) = [] := by
  rw [List.filter_eq_nil_iff]
  intro x hx hxc
  rw [decide_eq_true_iff] at hxc
  exact hc (hxc ▸ hx)

theorem profiles_filter_len_le_one {coaches : List CoachProfile}
    (hnd : (coaches.map (fun p => p.coach)).Nodup) (cname : String) :
    (coaches.filter (fun p => p.coach = cname)).length ≤ 1 := by
  induction coaches with
  | nil => exact Nat.zero_le 1
  | cons a t ih =>
    rw [List.map_cons, List.nodup_cons] at hnd
    by_cases hac : a.coach = cname
    · rw [List.filter_cons_of_pos (by simpa using hac)]
      have ht : t.filter (fun p => p.coach = cname) = [] := by
        rw [List.filter_eq_nil_iff]
        intro p hp hpc
        rw [decide_eq_true_iff] at hpc
        exact hnd.1 (by
          rw [hac, ← hpc]
          exact List.mem_map_of_mem _ hp)
      rw [ht]
      simp
    · rw [List.filter_cons_of_neg (by simpa using hac)]
      exact ih hnd.2

theorem merged_coach_agg {recencyW : Nat → Rat} {asOf : Int} {d : List Drill}
    {event : Option String} {coaches : List CoachProfile} {c : String}
    {x : Merged}
    (hx : x ∈ mergeProfiles event (aggRows recencyW asOf d) coaches)
    (hc : x.agg.coach = c) : x.agg = aggregateFor recencyW asOf d c := by
  obtain ⟨k, _, hgk⟩ := mem_aggRows (mem_mergeProfiles_agg hx)
  have hkc : k = c := by
    rw [hgk, aggregateFor_coach] at hc
    exact hc
  rw [hgk, hkc]

theorem map_filter_coach_len (w : Weights) (n : Nat) (l : List Scored)
    (c : String) :
    ((l.map (toScoreRow w n)).filter (fun r => r.coach = c)).length =
      (l.filter (fun x => x.coach = c)).length := by
  rw [List.filter_map, List.length_map]
  rfl

theorem sortDesc_filter_coach_len (w : Weights) (l : List Scored)
    (c : String) :
    ((sortDesc w l).filter (fun x => x.coach = c)).length =
      (l.filter (fun x => x.coach = c)).length :=
  ((sortDesc_perm w l).filter _).length_eq

theorem scored_filter_coach_len (grp : List Agg) (n : Nat)
    (merged : List Merged) (c : String) :
    ((merged.map (scoreOf grp n merged)).filter
      (fun x => x.coach = c)).length =
      (merged.filter (fun x => x.agg.coach = c)).length := by
  rw [List.filter_map, List.length_map]
  rfl

theorem aggRows_filter_coach (recencyW : Nat → Rat) (asOf : Int)
    (d : List Drill) (c : String) :
    (aggRows recencyW asOf d).filter (fun g => g.coach = c) =
      ((coachKeys d).filter (fun k => k = c)).map
        (aggregateFor recencyW asOf d) := by
  unfold aggRows
  rw [List.filter_map]
  rfl

/-- C10 (amended): with duplicate-free coach profiles the result holds at
most one row per coach identifier; and a coach identifier occurring
`k ≥ 1` times in the profile table yields exactly `k` result rows,
provided the coach has at least one qualifying drill record and clears the
`min_sessions` bar (a coach with no qualifying records, or below the bar,
yields no row at all, whatever `k` is). -/
theorem c10_profile_fanout (drills : List Drill) (roster : List String)
    (coaches : List CoachProfile) (recencyW : Nat → Rat) (asOf : Int)
    (event : Option String) (m : Nat) (o : WeightOverrides) (c : String) :
    ((coaches.map (fun p => p.coach)).Nodup →
      ((compute_scores drills roster coaches recencyW asOf event m o).rows.filter
        (fun r => r.coach = c)).length ≤ 1) ∧
    (∀ k : Nat, 1 ≤ k →
      (coaches.filter (fun p => p.coach = c)).length = k →
      c ∈ coachKeys (filterToRoster drills roster) →
      m ≤ (aggregateFor recencyW asOf (filterToRoster drills roster) c).sessions →
      ((compute_scores drills roster coaches recencyW asOf event m o).rows.filter
        (fun r => r.coach = c)).length = k) := by
  by_cases hd : (filterToRoster drills roster).isEmpty
  · constructor
    · intro _
      simp [compute_scores, hd]
    · intro k hk1 _ hc _
      exfalso
      obtain ⟨r, hr, _⟩ := mem_coachKeys hc
      rw [List.isEmpty_iff] at hd
      rw [hd] at hr
      cases hr
  · have hrows : ((compute_scores drills roster coaches recencyW asOf event
        m o).rows.filter (fun r => r.coach = c)).length =
        (((scoredRows recencyW asOf event (filterToRoster drills roster)
            (roster_students roster).length coaches).filter
          (fun x => m ≤ x.sessions)).filter (fun x => x.coach = c)).length := by
      simp only [compute_scores, hd, Bool.false_eq_true, if_false]
      rw [map_filter_coach_len, sortDesc_filter_coach_len]
    have hcomm : (((scoredRows recencyW asOf event (filterToRoster drills roster)
          (roster_students roster).length coaches).filter
        (fun x => m ≤ x.sessions)).filter (fun x => x.coach = c)) =
        (((scoredRows recencyW asOf event (filterToRoster drills roster)
            (roster_students roster).length coaches).filter
          (fun x => x.coach = c)).filter (fun x => m ≤ x.sessions)) := by
      rw [List.filter_filter, List.filter_filter]
      exact List.filter_congr (fun x _ => by rw [Bool.and_comm])
    have hscored : (((scoredRows recencyW asOf event (filterToRoster drills roster)
          (roster_students roster).length coaches).filter
        (fun x => x.coach = c)).length) =
        (((mergeProfiles event
            (aggRows recencyW asOf (filterToRoster drills roster)) coaches).filter
          (fun x => x.agg.coach = c)).length) := by
      unfold scoredRows
      rw [scored_filter_coach_len]
    constructor
    · intro hnd
      rw [hrows, hcomm]
      calc (((scoredRows recencyW asOf event (filterToRoster drills roster)
              (roster_students roster).length coaches).filter
            (fun x => x.coach = c)).filter (fun x => m ≤ x.sessions)).length
          ≤ ((scoredRows recencyW asOf event (filterToRoster drills roster)
              (roster_students roster).length coaches).filter
            (fun x => x.coach = c)).length :=
            (List.filter_sublist _).length_le
        _ = ((mergeProfiles event
              (aggRows recencyW asOf (filterToRoster drills roster)) coaches).filter
            (fun x => x.agg.coach = c)).length := hscored
        _ ≤ 1 := by
            rw [mergeProfiles_filter_len, aggRows_filter_coach]
            by_cases hc : c ∈ coachKeys (filterToRoster drills roster)
            · rw [nodup_filter_eq_single (coachKeys_nodup _) hc]
              simp only [List.map_cons, List.map_nil, List.sum_cons,
                List.sum_nil, List.map_map]
              have hk1 : (coaches.filter (fun p =>
                  p.coach = (aggregateFor recencyW asOf
                    (filterToRoster drills roster) c).coach)).length ≤ 1 := by
                rw [aggregateFor_coach]
                exact profiles_filter_len_le_one hnd c
              omega
            · rw [filter_eq_nil_of_not_mem hc]
              simp
    · intro k hk1 hkc hc hm
      rw [hrows, hcomm]
      have hall : (((scoredRows recencyW asOf event (filterToRoster drills roster)
            (roster_students roster).length coaches).filter
          (fun x => x.coach = c)).filter (fun x => m ≤ x.sessions)) =
          (((scoredRows recencyW asOf event (filterToRoster drills roster)
              (roster_students roster).length coaches).filter
            (fun x => x.coach = c))) := by
        rw [List.filter_eq_self]
        intro x hx
        rw [List.mem_filter] at hx
        obtain ⟨hxs, hxc⟩ := hx
        unfold scoredRows at hxs
        rw [List.mem_map] at hxs
        obtain ⟨y, hy, rfl⟩ := hxs
        have hyc : y.agg.coach = c := by simpa [scoreOf] using hxc
        have hagg := merged_coach_agg hy hyc
        simp only [scoreOf, decide_eq_true_iff]
        rw [hagg]
        exact hm
      rw [hall, hscored, mergeProfiles_filter_len, aggRows_filter_coach,
        nodup_filter_eq_single (coachKeys_nodup _) hc]
      simp only [List.map_cons, List.map_nil, List.sum_cons, List.sum_nil,
        List.map_map]
      have hkeq : (coaches.filter (fun p =>
          p.coach = (aggregateFor recencyW asOf
            (filterToRoster drills roster) c).coach)).length = k := by
        rw [aggregateFor_coach]
        exact hkc
      omega

/-- C10 counterexample: a coach occurring twice in the profile table but
with no qualifying drill record yields zero result rows, not two. -/
theorem c10_duplicate_profile_no_rows_cx :
    ((([⟨"Y", none, none⟩, ⟨"Y", none, none⟩] : List CoachProfile).filter
      (fun p => p.coach = "Y")).length = 2) ∧
    (((compute_scores [⟨"a", "X", some 0, 10, "d"⟩] ["a"]
        [⟨"Y", none, none⟩, ⟨"Y", none, none⟩] (fun _ => 1) 0 none 1
        noOverrides).rows.filter (fun r => r.coach = "Y")).length = 0) ∧
    (0 : Nat) ≠ 2 := by
  with_unfolding_all decide

/-- C10 witness: a single profiled coach with one qualifying record:
`k = 1` row, and at most one row under duplicate-free profiles. -/
theorem c10_profile_fanout_witness :
    ((([⟨"X", some "ld", some 3⟩] : List CoachProfile).map
      (fun p => p.coach)).Nodup) ∧
    ((([⟨"X", some "ld", some 3⟩] : List CoachProfile).filter
      (fun p => p.coach = "X")).length = 1) ∧
    ("X" ∈ coachKeys (filterToRoster [⟨"a", "X", some 0, 10, "d"⟩] ["a"])) ∧
    (1 ≤ (aggregateFor (fun _ => 1) 0
      (filterToRoster [⟨"a", "X", some 0, 10, "d"⟩] ["a"]) "X").sessions) ∧
    (((compute_scores [⟨"a", "X", some 0, 10, "d"⟩] ["a"]
        [⟨"X", some "ld", some 3⟩] (fun _ => 1) 0 none 1
        noOverrides).rows.filter (fun r => r.coach = "X")).length ≤ 1) ∧
    (((compute_scores [⟨"a", "X", some 0, 10, "d"⟩] ["a"]
        [⟨"X", some "ld", some 3⟩] (fun _ => 1) 0 none 1
        noOverrides).rows.filter (fun r => r.coach = "X")).length = 1) :=
  ⟨by with_unfolding_all decide, by with_unfolding_all decide,
   by with_unfolding_all decide, by with_unfolding_all decide,
   (c10_profile_fanout [⟨"a", "X", some 0, 10, "d"⟩] ["a"]
      [⟨"X", some "ld", some 3⟩] (fun _ => 1) 0 none 1 noOverrides "X").1
     (by with_unfolding_all decide),
   (c10_profile_fanout [⟨"a", "X", some 0, 10, "d"⟩] ["a"]
      [⟨"X", some "ld", some 3⟩] (fun _ => 1) 0 none 1 noOverrides "X").2 1
     (by with_unfolding_all decide) (by with_unfolding_all decide)
     (by with_unfolding_all decide) (by with_unfolding_all decide)⟩

end CoachMatcher
